import Mathlib

/-!
Verification of the kcoreaddons KDirWatch private data model
(src/unnamed/part_001, the private header `kdirwatch_p.h`) and of the
desktoptojson escape decoder (src/src/desktoptojson/desktoptojson.cpp).

The header declares `KDirWatchPrivate` with its `Entry` and `Client`
records and gives inline bodies for `Entry::isValid` and
`Entry::findSubEntry`.  The bodies of the remaining member functions
(`scanEntry`, `emitEvent`, `addEntry`, `addClient`, `removeClient`,
`stopEntryScan`, `restartEntryScan`, the delayed-removal slot and the
backend selectors) live in `kdirwatch.cpp`, which is not part of the
source tree here; those operations are modelled from the specification,
each such definition says so in its doc comment.
-/

set_option maxHeartbeats 1000000

namespace KDirWatch

/-- Event flags, from the header:
`enum { NoChange = 0, Changed = 1, Created = 2, Deleted = 4 }`. -/
def NoChange : Nat := 0

/-- `Changed = 1` from the event-flag enum in the header. -/
def Changed : Nat := 1

/-- `Created = 2` from the event-flag enum in the header. -/
def Created : Nat := 2

/-- `Deleted = 4` from the event-flag enum in the header. -/
def Deleted : Nat := 4

/-- `enum entryStatus { Normal = 0, NonExistent }` from the header. -/
inductive EntryStatus : Type where
  | Normal : EntryStatus
  | NonExistent : EntryStatus
deriving DecidableEq, Repr

/-- `enum entryMode { UnknownMode = 0, StatMode, INotifyMode, FAMMode, QFSWatchMode }`
from the header. -/
inductive EntryMode : Type where
  | UnknownMode : EntryMode
  | StatMode : EntryMode
  | INotifyMode : EntryMode
  | FAMMode : EntryMode
  | QFSWatchMode : EntryMode
deriving DecidableEq, Repr

/-- `struct Client` from the header: the `KDirWatch *instance` pointer is
modelled as a plain numeric subscriber identity, `count` is the
registration reference count, `watchingStopped` the pause flag,
`pending` the mask of events blocked while stopped, and `m_watchModes`
the requested `KDirWatch::WatchModes` mask. -/
structure Client : Type where
  instance_ : Nat
  count : Nat
  watchingStopped : Bool
  pending : Nat
  m_watchModes : Nat
deriving DecidableEq, Repr

/-- `class Entry` from the header: clients interested in events,
nonexistent sub-entries nested under this entry, the canonical path,
the last observed modification time (`time_t m_ctime`, with `-1` as the
`invalid_ctime` sentinel), last observed inode, last observed link
count, status, backend mode, directory flag and dirty flag.  The
polling fields `msecLeft`/`freq` and backend handles are not needed by
any claim and are omitted. -/
inductive Entry : Type where
  | mk : (m_clients : List Client) → (m_entries : List Entry) → (path : String) →
      (m_ctime : Int) → (m_ino : Nat) → (m_nlink : Int) →
      (m_status : EntryStatus) → (m_mode : EntryMode) →
      (isDir : Bool) → (dirty : Bool) → Entry

/-- Accessor for the client list of an `Entry`. -/
def Entry.m_clients : Entry → List Client
  | .mk c _ _ _ _ _ _ _ _ _ => c

/-- Accessor for the sub-entry list of an `Entry`. -/
def Entry.m_entries : Entry → List Entry
  | .mk _ s _ _ _ _ _ _ _ _ => s

/-- Accessor for the path of an `Entry`. -/
def Entry.path : Entry → String
  | .mk _ _ p _ _ _ _ _ _ _ => p

/-- Accessor for the last observed modification time of an `Entry`. -/
def Entry.m_ctime : Entry → Int
  | .mk _ _ _ t _ _ _ _ _ _ => t

/-- Accessor for the last observed inode of an `Entry`. -/
def Entry.m_ino : Entry → Nat
  | .mk _ _ _ _ i _ _ _ _ _ => i

/-- Accessor for the last observed link count of an `Entry`. -/
def Entry.m_nlink : Entry → Int
  | .mk _ _ _ _ _ n _ _ _ _ => n

/-- Accessor for the status of an `Entry`. -/
def Entry.m_status : Entry → EntryStatus
  | .mk _ _ _ _ _ _ st _ _ _ => st

/-- Accessor for the backend mode of an `Entry`. -/
def Entry.m_mode : Entry → EntryMode
  | .mk _ _ _ _ _ _ _ m _ _ => m

/-- Accessor for the directory flag of an `Entry`. -/
def Entry.isDir : Entry → Bool
  | .mk _ _ _ _ _ _ _ _ d _ => d

/-- Accessor for the dirty flag of an `Entry`. -/
def Entry.dirty : Entry → Bool
  | .mk _ _ _ _ _ _ _ _ _ d => d

/-- `Entry::isValid` from the header:
`return !m_clients.empty() || !m_entries.empty();`. -/
def Entry.isValid (e : Entry) : Bool :=
  !e.m_clients.isEmpty || !e.m_entries.isEmpty

/-- Loop body of `Entry::findSubEntry` from the header: walk the
sub-entry list, return the first sub-entry whose `path` equals the
argument, else the null pointer (modelled as `none`). -/
def findSubEntryAux (p : String) : List Entry → Option Entry
  | [] => none
  | sub :: rest => if sub.path = p then some sub else findSubEntryAux p rest

/-- `Entry::findSubEntry` from the header: `Q_FOREACH` over `m_entries`
returning the first sub-entry with matching path, `0` when none. -/
def Entry.findSubEntry (e : Entry) (p : String) : Option Entry :=
  findSubEntryAux p e.m_entries

/-- Metadata snapshot delivered by the stat-based probe, per the spec's
collaborator interface
`read_metadata(path) -> {modification_time, inode, link_count, is_directory} | NotFound`. -/
structure Metadata : Type where
  modification_time : Int
  inode : Nat
  link_count : Int
  is_directory : Bool
deriving DecidableEq, Repr

/-- Modelled from the spec: the body of `KDirWatchPrivate::scanEntry` is not
under `src` (the private header only declares it); the transition
classification follows §4.3 of the spec, comparing the previous and the
current metadata snapshot.  `none` stands for `read_metadata` returning
NotFound. -/
def scanEvent : Option Metadata → Option Metadata → Nat
  | none, none => NoChange
  | none, some _ => Created
  | some _, none => Deleted
  | some prev, some cur =>
    if cur.modification_time ≠ prev.modification_time ∨
       cur.inode ≠ prev.inode ∨
       (cur.is_directory = true ∧ cur.link_count ≠ prev.link_count) then
      Changed
    else NoChange

mutual

/-- Modelled from the spec: the bodies of `KDirWatchPrivate::addEntry` and
of the promotion of a NonExistent sub-entry on a Creation event are not
under `src`; per §4.1 of the spec a promoted entry re-issues `Created`
to its own clients and promotion recurses into each sub-entry whose
path now exists.  `ex` is the existence predicate after the creation;
the result is the list of `(subscriber, path, event)` deliveries. -/
def promote (ex : String → Bool) : Entry → List (Nat × String × Nat)
  | .mk cls subs p _ _ _ _ _ _ _ =>
      cls.map (fun c => (c.instance_, p, Created)) ++ promoteSubs ex subs

/-- Recursion of `promote` over a sub-entry list: a sub-entry is promoted
exactly when its path now exists. -/
def promoteSubs (ex : String → Bool) : List Entry → List (Nat × String × Nat)
  | [] => []
  | s :: rest =>
      (if ex s.path then promote ex s else []) ++ promoteSubs ex rest

end

/-- Number of deliveries of a `Created` event for path `p` to subscriber
`cid` in a delivery list. -/
def countNotif (cid : Nat) (p : String) (l : List (Nat × String × Nat)) : Nat :=
  l.countP (fun n => n.1 == cid && n.2.1 == p && n.2.2 == Created)

mutual

/-- Number of registrations of subscriber `cid` at path `p` inside the
region of the entry tree that `promote` reaches: the root entry counts
unconditionally, a sub-entry only when its path exists. -/
def promotedRegs (ex : String → Bool) (cid : Nat) (p : String) : Entry → Nat
  | .mk cls subs q _ _ _ _ _ _ _ =>
      (if q = p then cls.countP (fun c => c.instance_ == cid) else 0) +
        promotedRegsSubs ex cid p subs

/-- Recursion of `promotedRegs` over a sub-entry list. -/
def promotedRegsSubs (ex : String → Bool) (cid : Nat) (p : String) : List Entry → Nat
  | [] => 0
  | s :: rest =>
      (if ex s.path then promotedRegs ex cid p s else 0) + promotedRegsSubs ex cid p rest

end

/-- Modelled from the spec: the removal pass (`slotRemoveDelayed` and
`removeEntry`, not under `src`) destroys exactly the entries that are
no longer valid; per §3 of the spec an entry whose client list and
sub-entry list are both empty is eligible for removal. -/
def removalPass (entries : List Entry) : List Entry :=
  entries.filter (fun e => e.isValid)

/-- Modelled from the spec: the body of `KDirWatchPrivate::emitEvent` is
not under `src`; per §4.3 of the spec the event fans out to every
client that is not paused (`watchingStopped`) and whose watch-mode mask
matches the event; `modeMatch` abstracts the mode/event matching rule,
which the spec does not pin down.  The result lists the
`(subscriber, event)` deliveries of this scan cycle. -/
def emitEvent (modeMatch : Nat → Nat → Bool) (cls : List Client) (event : Nat) :
    List (Nat × Nat) :=
  cls.filterMap (fun c =>
    if c.watchingStopped then none
    else if modeMatch c.m_watchModes event then some (c.instance_, event)
    else none)

/-- Number of notifications addressed to subscriber `cid` in a delivery
list of one scan cycle. -/
def deliveredTo (cid : Nat) (l : List (Nat × Nat)) : Nat :=
  l.countP (fun n => n.1 == cid)

/-- Modelled from the spec: within one scan cycle several underlying
changes accumulate into one pending mask by ORing the event flags,
which the flag enum of the header (powers of two) is designed for. -/
def batchEvents (evs : List Nat) : Nat :=
  evs.foldl (fun acc ev => acc ||| ev) 0

/-- Modelled from the spec: the single strongest event of a pending mask;
`Deleted` (bit 2) and `Created` (bit 1) each dominate `Changed`
(bit 0). -/
def strongestEvent (mask : Nat) : Nat :=
  if mask.testBit 2 then Deleted
  else if mask.testBit 1 then Created
  else if mask.testBit 0 then Changed
  else NoChange

/-- Modelled from the spec: `stopEntryScan` (not under `src`) marks the
client paused; the registration itself is retained. -/
def stopClientScan (c : Client) : Client :=
  Client.mk c.instance_ c.count true c.pending c.m_watchModes

/-- Modelled from the spec: while a client is paused an arriving event is
suppressed and accumulated into the `pending` mask (the header calls
`pending` the events blocked when stopped); a client that is not
paused is untouched by this bookkeeping. -/
def recordPending (c : Client) (event : Nat) : Client :=
  if c.watchingStopped then
    Client.mk c.instance_ c.count c.watchingStopped (c.pending ||| event) c.m_watchModes
  else c

/-- Modelled from the spec: `restartEntryScan` (not under `src`) clears
the pause flag and the pending mask and, when changes accrued while
paused, replays them as one synthetic `Changed` event. -/
def restartClientScan (c : Client) : Client × List Nat :=
  (Client.mk c.instance_ c.count false 0 c.m_watchModes,
   if c.watchingStopped && (c.pending != 0) then [Changed] else [])

/-- Modelled from the spec: `Entry::addClient` (not under `src`): when a
client for this subscriber already exists its reference count is
incremented, otherwise a fresh client with count 1 is appended. -/
def addClient (cls : List Client) (cid : Nat) (modes : Nat) : List Client :=
  if cls.any (fun c => c.instance_ == cid) then
    cls.map (fun c =>
      if c.instance_ == cid then
        Client.mk c.instance_ (c.count + 1) c.watchingStopped c.pending c.m_watchModes
      else c)
  else cls ++ [Client.mk cid 1 false 0 modes]

/-- Modelled from the spec: `Entry::removeClient` (not under `src`): the
subscriber's client has its reference count decremented and is removed
from the list only when the count reaches zero. -/
def removeClient (cls : List Client) (cid : Nat) : List Client :=
  cls.filterMap (fun c =>
    if c.instance_ == cid then
      if c.count ≤ 1 then none
      else some (Client.mk c.instance_ (c.count - 1) c.watchingStopped c.pending c.m_watchModes)
    else some c)

/-- The mutable singleton state relevant to delayed removal: the entry
table (modelled by its path keys), the `removeList` queue and the
`delayRemove` flag, all fields of `KDirWatchPrivate` in the header. -/
structure WatcherState : Type where
  m_mapEntries : List String
  removeList : List String
  delayRemove : Bool
deriving DecidableEq, Repr

/-- Modelled from the spec: `KDirWatchPrivate::removeEntry` during a scan
(body not under `src`): while `delayRemove` is set (a scan pass is in
progress) the entry is only queued on `removeList` — which holds any
entry at most once, as the header states — and the entry table is left
untouched; outside a scan the entry is removed at once. -/
def removeEntryOp (s : WatcherState) (p : String) : WatcherState :=
  if s.delayRemove then
    WatcherState.mk s.m_mapEntries
      (if s.removeList.contains p then s.removeList else s.removeList ++ [p])
      s.delayRemove
  else
    WatcherState.mk (s.m_mapEntries.filter (fun q => q != p)) s.removeList s.delayRemove

/-- Modelled from the spec: `KDirWatchPrivate::slotRemoveDelayed` (body
not under `src`): once the scan pass completes the queued removals are
applied to the entry table and the queue is cleared. -/
def slotRemoveDelayed (s : WatcherState) : WatcherState :=
  WatcherState.mk (s.m_mapEntries.filter (fun q => !s.removeList.contains q)) [] false

/-- Host backend availability: `use_fam` and `supports_inotify` are the
flags of those names in the header, `qfswatch_available` stands for
`QFileSystemWatcher` support being compiled in. -/
structure Availability : Type where
  use_fam : Bool
  supports_inotify : Bool
  qfswatch_available : Bool
deriving DecidableEq, Repr

/-- Modelled from the spec: `useFAM` (body not under `src`) attaches the
FAM backend and assigns `FAMMode` only when FAM is available, else it
reports failure. -/
def useFAM (av : Availability) : Option EntryMode :=
  if av.use_fam then some EntryMode.FAMMode else none

/-- Modelled from the spec: `useINotify` (body not under `src`) assigns
`INotifyMode` only when inotify is supported. -/
def useINotify (av : Availability) : Option EntryMode :=
  if av.supports_inotify then some EntryMode.INotifyMode else none

/-- Modelled from the spec: `useQFSWatch` (body not under `src`) assigns
`QFSWatchMode` only when `QFileSystemWatcher` support is compiled in. -/
def useQFSWatch (av : Availability) : Option EntryMode :=
  if av.qfswatch_available then some EntryMode.QFSWatchMode else none

/-- Modelled from the spec: per §4.2 backend selection falls back in a
fixed precedence order ending in stat-based polling, which is always
permitted. -/
def chooseBackend (av : Availability) : EntryMode :=
  match useFAM av with
  | some m => m
  | none =>
    match useINotify av with
    | some m => m
    | none =>
      match useQFSWatch av with
      | some m => m
      | none => EntryMode.StatMode

/-- Which backend modes the host allows: FAM, inotify and QFSWatch only
when the mechanism is available, stat polling always, `UnknownMode`
being the unattached state. -/
def modeAvailable (av : Availability) : EntryMode → Prop
  | EntryMode.FAMMode => av.use_fam = true
  | EntryMode.INotifyMode => av.supports_inotify = true
  | EntryMode.QFSWatchMode => av.qfswatch_available = true
  | EntryMode.StatMode => True
  | EntryMode.UnknownMode => True

/-- Concrete sub-entry used to instantiate the `findSubEntry` theorems. -/
def subEntryX : Entry :=
  Entry.mk [] [] "x" (-1) 0 0 EntryStatus.NonExistent EntryMode.UnknownMode false false
/-- Concrete sub-entry used to instantiate the `findSubEntry` theorems. -/
def subEntryY : Entry :=
  Entry.mk [] [] "y" (-1) 0 0 EntryStatus.NonExistent EntryMode.UnknownMode false false
/-- Concrete directory entry holding the two sub-entries above. -/
def parentEntryD : Entry :=
  Entry.mk [] [subEntryX, subEntryY] "d" 10 5 2 EntryStatus.Normal EntryMode.StatMode true false
/-- Concrete entry with no sub-entries. -/
def leafEntryE : Entry :=
  Entry.mk [] [] "e" 10 6 1 EntryStatus.Normal EntryMode.StatMode false false
/-- Concrete metadata snapshot for the witnesses. -/
def metaFile1 : Metadata := Metadata.mk 100 42 1 false
/-- Concrete directory snapshot whose link count differs from `metaDir3`. -/
def metaDir2 : Metadata := Metadata.mk 200 43 2 true
/-- Concrete directory snapshot equal to `metaDir2` except the link count. -/
def metaDir3 : Metadata := Metadata.mk 200 43 3 true
/-- Host with only inotify available, for the witness. -/
def inotifyOnlyHost : Availability := Availability.mk false true false
/-- Concrete watcher state in mid-scan for the witness: `delayRemove` is
set, one entry queued, two entries in the table. -/
def midScanState : WatcherState := WatcherState.mk ["a", "b"] ["b"] true
/-- Concrete client for the pause/resume witness. -/
def clientSeven : Client := Client.mk 7 1 false 0 3
/-- Concrete starting client list (one unrelated subscriber) for the
refcount witness. -/
def otherClient : Client := Client.mk 3 1 false 0 0
/-- Concrete client list for the fan-out witness: subscriber 1 active and
matching, subscriber 2 paused, subscriber 3 active but not matching
under the mode-match rule `fun modes _ => modes == 1`. -/
def fanoutClients : List Client :=
  [Client.mk 1 1 false 0 1, Client.mk 2 1 true 0 1, Client.mk 3 1 false 0 0]
/-- NonExistent sub-entry for a watched missing file, with subscriber 7
registered once. -/
def watchedFileF : Entry :=
  Entry.mk [Client.mk 7 1 false 0 0] [] "d/m/f" (-1) 0 0
    EntryStatus.NonExistent EntryMode.UnknownMode false false
/-- NonExistent intermediate directory holding the sub-entry above. -/
def missingDirM : Entry :=
  Entry.mk [] [watchedFileF] "d/m" (-1) 0 0
    EntryStatus.NonExistent EntryMode.UnknownMode true false

end KDirWatch

namespace DesktopToJson

/-- `escapeValue` from `desktoptojson.cpp`: scan the input byte string;
a non-backslash byte is copied; a backslash at the very end of the
input is copied as-is; a backslash followed by `s`, `n`, `t`, `r` or a
second backslash is decoded to space, newline, tab, carriage return or
a single backslash; a backslash followed by any other byte is kept
verbatim as the two bytes. -/
def escapeValue : List Char → List Char
  | [] => []
  | c :: rest =>
    if c ≠ '\\' then
      c :: escapeValue rest
    else
      match rest with
      | [] => ['\\']
      | next :: rest2 =>
        if next = 's' then ' ' :: escapeValue rest2
        else if next = 'n' then '\n' :: escapeValue rest2
        else if next = 't' then '\t' :: escapeValue rest2
        else if next = 'r' then '\r' :: escapeValue rest2
        else if next = '\\' then '\\' :: escapeValue rest2
        else '\\' :: next :: escapeValue rest2

end DesktopToJson

namespace DesktopToJson

theorem escapeValue_nil : escapeValue [] = [] := rfl

theorem escapeValue_cons_ne (c : Char) (rest : List Char) (hc : c ≠ '\\') :
    escapeValue (c :: rest) = c :: escapeValue rest := by
  conv_lhs => rw [escapeValue.eq_def]
  simp [hc]

theorem escapeValue_id_of_no_backslash (l : List Char) (h : '\\' ∉ l) :
    escapeValue l = l := by
  induction l with
  | nil => rfl
  | cons c rest ih =>
    have hc : c ≠ '\\' := by
      intro hcc
      exact h (hcc ▸ List.mem_cons_self c rest)
    rw [escapeValue_cons_ne c rest hc, ih (fun hm => h (List.mem_cons_of_mem _ hm))]

theorem escapeValue_trailing (l : List Char) (h : '\\' ∉ l) :
    escapeValue (l ++ ['\\']) = l ++ ['\\'] := by
  induction l with
  | nil => rfl
  | cons c rest ih =>
    have hc : c ≠ '\\' := by
      intro hcc
      exact h (hcc ▸ List.mem_cons_self c rest)
    rw [List.cons_append, escapeValue_cons_ne c _ hc,
      ih (fun hm => h (List.mem_cons_of_mem _ hm))]

/-- C10: the desktop-entry escape decoder `escapeValue` maps `\s`, `\n`,
`\t`, `\r`, `\\` to space, newline, tab, carriage return and a single
backslash; a backslash followed by any other character is kept verbatim
as both characters; a lone backslash at the end of the input is kept;
and an input containing no backslash is returned unchanged. -/
theorem escapeValue_spec :
    (∀ rest : List Char,
      escapeValue ('\\' :: 's' :: rest) = ' ' :: escapeValue rest ∧
      escapeValue ('\\' :: 'n' :: rest) = '\n' :: escapeValue rest ∧
      escapeValue ('\\' :: 't' :: rest) = '\t' :: escapeValue rest ∧
      escapeValue ('\\' :: 'r' :: rest) = '\r' :: escapeValue rest ∧
      escapeValue ('\\' :: '\\' :: rest) = '\\' :: escapeValue rest) ∧
    (∀ (c : Char) (rest : List Char),
      c ∉ (['s', 'n', 't', 'r', '\\'] : List Char) →
      escapeValue ('\\' :: c :: rest) = '\\' :: c :: escapeValue rest) ∧
    (∀ l : List Char, '\\' ∉ l → escapeValue (l ++ ['\\']) = l ++ ['\\']) ∧
    (∀ l : List Char, '\\' ∉ l → escapeValue l = l) := by
  refine ⟨?_, ?_, escapeValue_trailing, escapeValue_id_of_no_backslash⟩
  · intro rest
    refine ⟨?_, ?_, ?_, ?_, ?_⟩ <;> rfl
  · intro c rest hc
    simp only [List.mem_cons, List.mem_singleton, not_or] at hc
    obtain ⟨h1, h2, h3, h4, h5⟩ := hc
    simp [escapeValue, h1, h2, h3, h4, h5]

theorem escapeValue_spec_witness :
    escapeValue ('\\' :: 's' :: ['a']) = ' ' :: escapeValue ['a'] ∧
    escapeValue ('\\' :: 'x' :: ['a']) = '\\' :: 'x' :: escapeValue ['a'] ∧
    escapeValue (['a'] ++ ['\\']) = ['a'] ++ ['\\'] ∧
    escapeValue ['a', 'b'] = ['a', 'b'] :=
  ⟨(escapeValue_spec.1 ['a']).1,
   escapeValue_spec.2.1 'x' ['a'] (by decide),
   escapeValue_spec.2.2.1 ['a'] (by decide),
   escapeValue_spec.2.2.2 ['a', 'b'] (by decide)⟩

end DesktopToJson

namespace KDirWatch

theorem findSubEntryAux_eq_some (p : String) (l : List Entry) (r : Entry)
    (h : findSubEntryAux p l = some r) :
    r.path = p ∧ ∃ l1 l2, l = l1 ++ r :: l2 ∧ ∀ x ∈ l1, x.path ≠ p := by
  induction l with
  | nil => simp [findSubEntryAux] at h
  | cons s rest ih =>
    rw [findSubEntryAux] at h
    by_cases hs : s.path = p
    · rw [if_pos hs] at h
      obtain rfl : s = r := Option.some.inj h
      exact ⟨hs, [], rest, rfl, by simp⟩
    · rw [if_neg hs] at h
      obtain ⟨hr, l1, l2, heq, hall⟩ := ih h
      refine ⟨hr, s :: l1, l2, by simp [heq], ?_⟩
      intro x hx
      rcases List.mem_cons.mp hx with h1 | h2
      · exact h1 ▸ hs
      · exact hall x h2

theorem findSubEntryAux_eq_none (p : String) (l : List Entry) :
    findSubEntryAux p l = none ↔ ∀ x ∈ l, x.path ≠ p := by
  induction l with
  | nil => simp [findSubEntryAux]
  | cons s rest ih =>
    rw [findSubEntryAux]
    by_cases hs : s.path = p
    · simp [hs]
    · simp [hs, ih]

/-- C9: `Entry::findSubEntry` returns the first sub-entry in the entry's
sub-entry list whose path equals the given path (every earlier
sub-entry has a different path), returns null (`none`) when no
sub-entry has that path, and on an entry whose sub-entry list is empty
it returns null for every input. -/
theorem findSubEntry_spec (e : Entry) (p : String) :
    (∀ r, e.findSubEntry p = some r →
      r.path = p ∧ ∃ l1 l2, e.m_entries = l1 ++ r :: l2 ∧ ∀ x ∈ l1, x.path ≠ p) ∧
    (e.findSubEntry p = none ↔ ∀ x ∈ e.m_entries, x.path ≠ p) ∧
    (e.m_entries = [] → e.findSubEntry p = none) := by
  refine ⟨fun r h => findSubEntryAux_eq_some p e.m_entries r h,
    findSubEntryAux_eq_none p e.m_entries, fun h => ?_⟩
  rw [Entry.findSubEntry, h]
  rfl

theorem findSubEntry_spec_witness :
    (subEntryY.path = "y" ∧
      ∃ l1 l2, parentEntryD.m_entries = l1 ++ subEntryY :: l2 ∧ ∀ x ∈ l1, x.path ≠ "y") ∧
    parentEntryD.findSubEntry "z" = none ∧
    leafEntryE.findSubEntry "x" = none :=
  ⟨(findSubEntry_spec parentEntryD "y").1 subEntryY rfl,
   (findSubEntry_spec parentEntryD "z").2.1.mpr (by decide),
   (findSubEntry_spec leafEntryE "x").2.2 rfl⟩

theorem isValid_iff (e : Entry) :
    e.isValid = true ↔ (e.m_clients ≠ [] ∨ e.m_entries ≠ []) := by
  rw [Entry.isValid]
  cases hc : e.m_clients <;> cases hs : e.m_entries <;> simp

/-- C3: an `Entry` is valid exactly when it has at least one Client or at
least one sub-entry; an entry with neither is invalid (eligible for
removal) and no such entry survives a removal pass. -/
theorem entry_validity_invariant :
    (∀ e : Entry, e.isValid = true ↔ (e.m_clients ≠ [] ∨ e.m_entries ≠ [])) ∧
    (∀ e : Entry, e.m_clients = [] → e.m_entries = [] → e.isValid = false) ∧
    (∀ (l : List Entry) (e : Entry), e.isValid = false → e ∉ removalPass l) := by
  refine ⟨isValid_iff, fun e hc hs => ?_, fun l e hv hmem => ?_⟩
  · rw [Entry.isValid, hc, hs]
    rfl
  · rw [removalPass] at hmem
    have := List.of_mem_filter hmem
    rw [hv] at this
    exact Bool.noConfusion this

theorem entry_validity_invariant_witness :
    (leafEntryE.isValid = true ↔ (leafEntryE.m_clients ≠ [] ∨ leafEntryE.m_entries ≠ [])) ∧
    subEntryX.isValid = false ∧
    subEntryX ∉ removalPass [subEntryX, parentEntryD] :=
  ⟨entry_validity_invariant.1 leafEntryE,
   entry_validity_invariant.2.1 subEntryX rfl rfl,
   entry_validity_invariant.2.2 [subEntryX, parentEntryD] subEntryX
     (entry_validity_invariant.2.1 subEntryX rfl rfl)⟩

end KDirWatch

namespace KDirWatch

/-- C1: transition classification of the scan, on a previous and a current
metadata snapshot: not-existed → exists is `Created`; existed →
not-exists is `Deleted`; existed → existed is `Changed` exactly when
the modification time changed, the inode changed, or (for a directory)
the link count changed; otherwise no event is produced. -/
theorem scanEntry_classification (prev cur : Option Metadata) :
    (prev = none → cur = none → scanEvent prev cur = NoChange) ∧
    (∀ m, prev = none → cur = some m → scanEvent prev cur = Created) ∧
    (∀ m, prev = some m → cur = none → scanEvent prev cur = Deleted) ∧
    (∀ p c, prev = some p → cur = some c →
      (scanEvent prev cur = Changed ↔
        (c.modification_time ≠ p.modification_time ∨ c.inode ≠ p.inode ∨
          (c.is_directory = true ∧ c.link_count ≠ p.link_count))) ∧
      (scanEvent prev cur ≠ Changed → scanEvent prev cur = NoChange)) := by
  refine ⟨?_, ?_, ?_, ?_⟩
  · rintro rfl rfl; rfl
  · rintro m rfl rfl; rfl
  · rintro m rfl rfl; rfl
  · rintro p c rfl rfl
    rw [scanEvent]
    by_cases h : c.modification_time ≠ p.modification_time ∨ c.inode ≠ p.inode ∨
        (c.is_directory = true ∧ c.link_count ≠ p.link_count)
    · rw [if_pos h]
      exact ⟨iff_of_true rfl h, fun hne => absurd rfl hne⟩
    · rw [if_neg h]
      refine ⟨⟨fun heq => absurd heq (by rw [NoChange, Changed]; decide), fun hc => absurd hc h⟩,
        fun _ => rfl⟩

theorem scanEntry_classification_witness :
    scanEvent (some metaDir2) (some metaDir3) = Changed ∧
    scanEvent (some metaFile1) (some metaFile1) = NoChange ∧
    scanEvent none (some metaFile1) = Created ∧
    scanEvent (some metaFile1) none = Deleted ∧
    scanEvent none none = NoChange :=
  ⟨((scanEntry_classification (some metaDir2) (some metaDir3)).2.2.2 metaDir2 metaDir3
      rfl rfl).1.mpr (by decide),
   ((scanEntry_classification (some metaFile1) (some metaFile1)).2.2.2 metaFile1 metaFile1
      rfl rfl).2 (by decide),
   (scanEntry_classification none (some metaFile1)).2.1 metaFile1 rfl rfl,
   (scanEntry_classification (some metaFile1) none).2.2.1 metaFile1 rfl rfl,
   (scanEntry_classification none none).1 rfl rfl⟩

theorem useFAM_some (av : Availability) (m : EntryMode) (h : useFAM av = some m) :
    m = EntryMode.FAMMode ∧ av.use_fam = true := by
  rw [useFAM] at h
  by_cases hf : av.use_fam = true
  · rw [if_pos hf] at h
    exact ⟨(Option.some.inj h).symm, hf⟩
  · rw [if_neg hf] at h
    exact Option.noConfusion h

theorem useINotify_some (av : Availability) (m : EntryMode) (h : useINotify av = some m) :
    m = EntryMode.INotifyMode ∧ av.supports_inotify = true := by
  rw [useINotify] at h
  by_cases hf : av.supports_inotify = true
  · rw [if_pos hf] at h
    exact ⟨(Option.some.inj h).symm, hf⟩
  · rw [if_neg hf] at h
    exact Option.noConfusion h

theorem useQFSWatch_some (av : Availability) (m : EntryMode) (h : useQFSWatch av = some m) :
    m = EntryMode.QFSWatchMode ∧ av.qfswatch_available = true := by
  rw [useQFSWatch] at h
  by_cases hf : av.qfswatch_available = true
  · rw [if_pos hf] at h
    exact ⟨(Option.some.inj h).symm, hf⟩
  · rw [if_neg hf] at h
    exact Option.noConfusion h

theorem chooseBackend_available (av : Availability) :
    modeAvailable av (chooseBackend av) := by
  obtain ⟨f, i, q⟩ := av
  cases f <;> cases i <;> cases q <;> trivial

/-- C8: no backend selector ever assigns a mode whose mechanism is
unavailable on the host: `useFAM`, `useINotify` and `useQFSWatch`
succeed only when the corresponding mechanism is available, every mode
they assign is admissible, and the fallback selection always yields an
admissible mode, stat-based polling always being permitted. -/
theorem backend_mode_never_unavailable (av : Availability) :
    (∀ m, useFAM av = some m → m = EntryMode.FAMMode ∧ av.use_fam = true) ∧
    (∀ m, useINotify av = some m → m = EntryMode.INotifyMode ∧ av.supports_inotify = true) ∧
    (∀ m, useQFSWatch av = some m → m = EntryMode.QFSWatchMode ∧ av.qfswatch_available = true) ∧
    (∀ m, useFAM av = some m ∨ useINotify av = some m ∨ useQFSWatch av = some m ∨
      m = EntryMode.StatMode → modeAvailable av m) ∧
    modeAvailable av (chooseBackend av) := by
  refine ⟨useFAM_some av, useINotify_some av, useQFSWatch_some av, ?_, chooseBackend_available av⟩
  intro m hm
  rcases hm with hm | hm | hm | hm
  · obtain ⟨rfl, h⟩ := useFAM_some av m hm
    simpa [modeAvailable] using h
  · obtain ⟨rfl, h⟩ := useINotify_some av m hm
    simpa [modeAvailable] using h
  · obtain ⟨rfl, h⟩ := useQFSWatch_some av m hm
    simpa [modeAvailable] using h
  · subst hm
    trivial

theorem backend_mode_never_unavailable_witness :
    (EntryMode.INotifyMode = EntryMode.INotifyMode ∧
      inotifyOnlyHost.supports_inotify = true) ∧
    modeAvailable inotifyOnlyHost EntryMode.StatMode ∧
    modeAvailable inotifyOnlyHost (chooseBackend inotifyOnlyHost) :=
  ⟨(backend_mode_never_unavailable inotifyOnlyHost).2.1 EntryMode.INotifyMode rfl,
   (backend_mode_never_unavailable inotifyOnlyHost).2.2.2.1 EntryMode.StatMode
     (Or.inr (Or.inr (Or.inr rfl))),
   (backend_mode_never_unavailable inotifyOnlyHost).2.2.2.2⟩

end KDirWatch

namespace KDirWatch

/-- C7: while a scan pass is in progress (`delayRemove` set) no entry is
structurally removed: the removal is queued on `removeList`, which
contains any entry at most once, and queued removals are applied, and
the queue emptied, only when the scan pass completes. -/
theorem delayed_removal_spec :
    (∀ (s : WatcherState) (p : String), s.delayRemove = true →
      (removeEntryOp s p).m_mapEntries = s.m_mapEntries ∧
      p ∈ (removeEntryOp s p).removeList) ∧
    (∀ (s : WatcherState) (p : String), s.removeList.Nodup →
      (removeEntryOp s p).removeList.Nodup) ∧
    (∀ s : WatcherState, ∀ q ∈ s.removeList, q ∉ (slotRemoveDelayed s).m_mapEntries) ∧
    (∀ s : WatcherState, (slotRemoveDelayed s).removeList = [] ∧
      (slotRemoveDelayed s).delayRemove = false) := by
  refine ⟨?_, ?_, ?_, ?_⟩
  · intro s p hd
    rw [removeEntryOp, if_pos hd]
    refine ⟨rfl, ?_⟩
    show p ∈ (if s.removeList.contains p then s.removeList else s.removeList ++ [p])
    by_cases hc : s.removeList.contains p
    · rw [if_pos hc]
      exact List.mem_of_elem_eq_true hc
    · rw [if_neg hc]
      exact List.mem_append_right _ (List.mem_singleton.mpr rfl)
  · intro s p hnd
    rw [removeEntryOp]
    by_cases hd : s.delayRemove = true
    · rw [if_pos hd]
      show (if s.removeList.contains p then s.removeList else s.removeList ++ [p]).Nodup
      by_cases hc : s.removeList.contains p
      · rw [if_pos hc]
        exact hnd
      · rw [if_neg hc]
        have hpn : p ∉ s.removeList := fun hmem => hc (List.elem_eq_true_of_mem hmem)
        simp [List.nodup_append, hnd, hpn]
    · rw [if_neg hd]
      exact hnd
  · intro s q hq
    rw [slotRemoveDelayed]
    intro hmem
    have h2 := List.of_mem_filter hmem
    rw [Bool.not_eq_true', ← Bool.not_eq_true] at h2
    exact h2 (List.elem_eq_true_of_mem hq)
  · intro s
    exact ⟨rfl, rfl⟩

theorem delayed_removal_spec_witness :
    ((removeEntryOp midScanState "a").m_mapEntries = midScanState.m_mapEntries ∧
      "a" ∈ (removeEntryOp midScanState "a").removeList) ∧
    (removeEntryOp midScanState "a").removeList.Nodup ∧
    "b" ∉ (slotRemoveDelayed midScanState).m_mapEntries ∧
    (slotRemoveDelayed midScanState).removeList = [] :=
  ⟨delayed_removal_spec.1 midScanState "a" rfl,
   delayed_removal_spec.2.1 midScanState "a" (by decide),
   delayed_removal_spec.2.2.1 midScanState "b" (by decide),
   (delayed_removal_spec.2.2.2 midScanState).1⟩

end KDirWatch

namespace KDirWatch

theorem or_ne_zero_left (x y : Nat) (hx : x ≠ 0) : x ||| y ≠ 0 := by
  intro h
  apply hx
  apply Nat.eq_of_testBit_eq
  intro i
  have hb := congrArg (fun n => Nat.testBit n i) h
  simp only [Nat.testBit_or, Nat.zero_testBit, Bool.or_eq_false_iff] at hb
  simp [hb.1]

theorem or_ne_zero_right (x y : Nat) (hy : y ≠ 0) : x ||| y ≠ 0 := by
  rw [Nat.or_comm]
  exact or_ne_zero_left y x hy

theorem foldl_or_ne_zero (evs : List Nat) (acc : Nat)
    (h : acc ≠ 0 ∨ ∃ e ∈ evs, e ≠ 0) :
    evs.foldl (fun a e => a ||| e) acc ≠ 0 := by
  induction evs generalizing acc with
  | nil =>
    rcases h with h | ⟨e, he, _⟩
    · exact h
    · cases he
  | cons e rest ih =>
    rw [List.foldl_cons]
    rcases h with h | ⟨x, hx, hxne⟩
    · exact ih (acc ||| e) (Or.inl (or_ne_zero_left _ _ h))
    · rcases List.mem_cons.mp hx with rfl | hx2
      · exact ih (acc ||| x) (Or.inl (or_ne_zero_right _ _ hxne))
      · exact ih (acc ||| e) (Or.inr ⟨x, hx2, hxne⟩)

theorem foldl_recordPending_paused (evs : List Nat) (cid cnt pend modes : Nat) :
    evs.foldl recordPending (Client.mk cid cnt true pend modes) =
      Client.mk cid cnt true (evs.foldl (fun a e => a ||| e) pend) modes := by
  induction evs generalizing pend with
  | nil => rfl
  | cons e rest ih =>
    rw [List.foldl_cons, List.foldl_cons]
    have h1 : recordPending (Client.mk cid cnt true pend modes) e =
        Client.mk cid cnt true (pend ||| e) modes := rfl
    rw [h1, ih]

/-- C5: while a client is paused, events are suppressed but the
registration (identity and reference count) is retained and the pending
mask accumulates the events; on resume, if at least one modification
occurred while paused, exactly one synthetic `Changed` event is
delivered regardless of how many modifications there were, and if none
occurred nothing is delivered. -/
theorem pause_resume_single_changed (c : Client) (evs : List Nat) (hp : c.pending = 0) :
    evs.foldl recordPending (stopClientScan c) =
      Client.mk c.instance_ c.count true (batchEvents evs) c.m_watchModes ∧
    ((∃ ev ∈ evs, ev ≠ NoChange) →
      (restartClientScan (evs.foldl recordPending (stopClientScan c))).2 = [Changed]) ∧
    (evs = [] →
      (restartClientScan (evs.foldl recordPending (stopClientScan c))).2 = []) := by
  have hstop : stopClientScan c = Client.mk c.instance_ c.count true 0 c.m_watchModes := by
    rw [stopClientScan, hp]
  have hfold : evs.foldl recordPending (stopClientScan c) =
      Client.mk c.instance_ c.count true (batchEvents evs) c.m_watchModes := by
    rw [hstop, foldl_recordPending_paused, batchEvents]
  refine ⟨hfold, ?_, ?_⟩
  · intro hev
    have hne : batchEvents evs ≠ 0 := by
      rw [batchEvents]
      exact foldl_or_ne_zero evs 0 (Or.inr hev)
    rw [hfold, restartClientScan]
    simp [hne]
  · intro hnil
    subst hnil
    rw [hfold]
    rfl

theorem pause_resume_single_changed_witness :
    [Changed, Changed, Deleted].foldl recordPending (stopClientScan clientSeven) =
      Client.mk 7 1 true (batchEvents [Changed, Changed, Deleted]) 3 ∧
    (restartClientScan
      ([Changed, Changed, Deleted].foldl recordPending (stopClientScan clientSeven))).2 =
      [Changed] ∧
    (restartClientScan ([].foldl recordPending (stopClientScan clientSeven))).2 = [] :=
  ⟨(pause_resume_single_changed clientSeven [Changed, Changed, Deleted] rfl).1,
   (pause_resume_single_changed clientSeven [Changed, Changed, Deleted] rfl).2.1
     ⟨Changed, by decide, by decide⟩,
   (pause_resume_single_changed clientSeven [] rfl).2.2 rfl⟩

end KDirWatch

namespace KDirWatch

theorem any_eq_false_of_absent (cls : List Client) (cid : Nat)
    (habs : ∀ c ∈ cls, c.instance_ ≠ cid) :
    cls.any (fun c => c.instance_ == cid) = false := by
  rw [Bool.eq_false_iff]
  intro hany
  obtain ⟨c, hc, hbeq⟩ := List.any_eq_true.mp hany
  exact habs c hc (by simpa using hbeq)

theorem addClient_absent (cls : List Client) (cid modes : Nat)
    (habs : ∀ c ∈ cls, c.instance_ ≠ cid) :
    addClient cls cid modes = cls ++ [Client.mk cid 1 false 0 modes] := by
  rw [addClient, any_eq_false_of_absent cls cid habs]
  rfl

theorem addClient_present (cls : List Client) (cid modes : Nat)
    (hany : cls.any (fun c => c.instance_ == cid) = true) :
    addClient cls cid modes =
      cls.map (fun c =>
        if c.instance_ == cid then
          Client.mk c.instance_ (c.count + 1) c.watchingStopped c.pending c.m_watchModes
        else c) := by
  rw [addClient, hany]
  rfl

theorem map_incr_absent (cls : List Client) (cid : Nat)
    (habs : ∀ c ∈ cls, c.instance_ ≠ cid) :
    cls.map (fun c =>
      if c.instance_ == cid then
        Client.mk c.instance_ (c.count + 1) c.watchingStopped c.pending c.m_watchModes
      else c) = cls := by
  induction cls with
  | nil => rfl
  | cons c rest ih =>
    have hc : (c.instance_ == cid) = false :=
      beq_eq_false_iff_ne.mpr (habs c (List.mem_cons_self c rest))
    simp only [List.map_cons, hc, Bool.false_eq_true, if_false]
    rw [ih (fun x hx => habs x (List.mem_cons_of_mem _ hx))]

theorem removeClient_absent (cls : List Client) (cid : Nat)
    (habs : ∀ c ∈ cls, c.instance_ ≠ cid) : removeClient cls cid = cls := by
  induction cls with
  | nil => rfl
  | cons c rest ih =>
    have hc : (c.instance_ == cid) = false :=
      beq_eq_false_iff_ne.mpr (habs c (List.mem_cons_self c rest))
    have ih2 := ih (fun x hx => habs x (List.mem_cons_of_mem _ hx))
    rw [removeClient] at ih2 ⊢
    rw [List.filterMap_cons]
    simp only [hc, Bool.false_eq_true, if_false]
    rw [ih2]

theorem removeClient_append (a b : List Client) (cid : Nat) :
    removeClient (a ++ b) cid = removeClient a cid ++ removeClient b cid := by
  rw [removeClient, removeClient, removeClient, List.filterMap_append]

theorem removeClient_single (cid modes k : Nat) :
    removeClient [Client.mk cid k false 0 modes] cid =
      (if k ≤ 1 then [] else [Client.mk cid (k - 1) false 0 modes]) := by
  rw [removeClient]
  by_cases hk : k ≤ 1
  · simp [List.filterMap_cons, hk]
  · simp [List.filterMap_cons, hk]

theorem addClient_iterate (cls : List Client) (cid modes : Nat)
    (habs : ∀ c ∈ cls, c.instance_ ≠ cid) :
    ∀ n, 1 ≤ n → (fun l => addClient l cid modes)^[n] cls =
      cls ++ [Client.mk cid n false 0 modes] := by
  intro n
  induction n with
  | zero => intro h; exact absurd h (by decide)
  | succ n ih =>
    intro _
    by_cases hn : 1 ≤ n
    · rw [Function.iterate_succ_apply', ih hn]
      have hany : (cls ++ [Client.mk cid n false 0 modes]).any
          (fun c => c.instance_ == cid) = true := by
        rw [List.any_append]
        simp [Client.instance_]
      rw [addClient_present _ _ _ hany, List.map_append, map_incr_absent cls cid habs]
      simp [Client.instance_, Client.count]
    · have hn0 : n = 0 := by omega
      subst hn0
      rw [Function.iterate_one]
      exact addClient_absent cls cid modes habs

theorem removeClient_iterate_absent (cls : List Client) (cid : Nat)
    (habs : ∀ c ∈ cls, c.instance_ ≠ cid) :
    ∀ m, (fun l => removeClient l cid)^[m] cls = cls := by
  intro m
  induction m with
  | zero => rfl
  | succ m ih =>
    rw [Function.iterate_succ_apply]
    show (fun l => removeClient l cid)^[m] (removeClient cls cid) = cls
    rw [removeClient_absent cls cid habs, ih]

theorem removeClient_iterate_appended (cls : List Client) (cid modes : Nat)
    (habs : ∀ c ∈ cls, c.instance_ ≠ cid) :
    ∀ m k, 1 ≤ k →
      (fun l => removeClient l cid)^[m] (cls ++ [Client.mk cid k false 0 modes]) =
        (if m < k then cls ++ [Client.mk cid (k - m) false 0 modes] else cls) := by
  intro m
  induction m with
  | zero =>
    intro k hk
    rw [if_pos (show 0 < k from hk)]
    simp
  | succ m ih =>
    intro k hk
    rw [Function.iterate_succ_apply]
    show (fun l => removeClient l cid)^[m]
        (removeClient (cls ++ [Client.mk cid k false 0 modes]) cid) = _
    rw [removeClient_append, removeClient_absent cls cid habs, removeClient_single]
    by_cases hk1 : k ≤ 1
    · rw [if_pos hk1, List.append_nil, removeClient_iterate_absent cls cid habs m,
        if_neg (by omega : ¬ (m + 1 < k))]
    · rw [if_neg hk1, ih (k - 1) (by omega)]
      by_cases hmk : m < k - 1
      · rw [if_pos hmk, if_pos (by omega : m + 1 < k)]
        have harith : k - 1 - m = k - (m + 1) := by omega
        rw [harith]
      · rw [if_neg hmk, if_neg (by omega : ¬ (m + 1 < k))]

theorem removeClient_cons_matched_le (c : Client) (rest : List Client) (cid : Nat)
    (hc : (c.instance_ == cid) = true) (hcnt : c.count ≤ 1) :
    removeClient (c :: rest) cid = removeClient rest cid := by
  rw [removeClient, removeClient, List.filterMap_cons, if_pos hc, if_pos hcnt]

theorem removeClient_cons_matched_gt (c : Client) (rest : List Client) (cid : Nat)
    (hc : (c.instance_ == cid) = true) (hcnt : ¬ c.count ≤ 1) :
    removeClient (c :: rest) cid =
      Client.mk c.instance_ (c.count - 1) c.watchingStopped c.pending c.m_watchModes ::
        removeClient rest cid := by
  rw [removeClient, removeClient, List.filterMap_cons, if_pos hc, if_neg hcnt]

theorem removeClient_cons_unmatched (c : Client) (rest : List Client) (cid : Nat)
    (hc : (c.instance_ == cid) = false) :
    removeClient (c :: rest) cid = c :: removeClient rest cid := by
  rw [removeClient, removeClient, List.filterMap_cons, if_neg (by simp [hc])]

theorem removeClient_map_sublist (cls : List Client) (cid : Nat) :
    ((removeClient cls cid).map Client.instance_).Sublist
      (cls.map Client.instance_) := by
  induction cls with
  | nil => simp [removeClient]
  | cons c rest ih =>
    by_cases hc : (c.instance_ == cid) = true
    · by_cases hcnt : c.count ≤ 1
      · rw [removeClient_cons_matched_le c rest cid hc hcnt, List.map_cons]
        exact ih.trans (List.sublist_cons_self _ _)
      · rw [removeClient_cons_matched_gt c rest cid hc hcnt, List.map_cons, List.map_cons]
        exact List.Sublist.cons₂ _ ih
    · have hc2 : (c.instance_ == cid) = false := by simpa using hc
      rw [removeClient_cons_unmatched c rest cid hc2, List.map_cons, List.map_cons]
      exact List.Sublist.cons₂ _ ih

/-- C6: repeated registrations of the same (subscriber, path) pair do not
create a second Client: re-registering an already-present subscriber
leaves the client list the same length, per-subscriber uniqueness of
clients is preserved by registration and by unregistration, and when
the subscriber is initially absent, n ≥ 1 registrations followed by m
unregistrations leave its client present with count n - m while m < n
and remove it exactly once m reaches n. -/
theorem client_refcount_spec (cls : List Client) (cid modes : Nat) :
    ((∃ c ∈ cls, c.instance_ = cid) →
      (addClient cls cid modes).length = cls.length) ∧
    ((cls.map Client.instance_).Nodup →
      ((addClient cls cid modes).map Client.instance_).Nodup ∧
      ((removeClient cls cid).map Client.instance_).Nodup) ∧
    ((∀ c ∈ cls, c.instance_ ≠ cid) → ∀ n m : Nat, 1 ≤ n →
      (fun l => removeClient l cid)^[m] ((fun l => addClient l cid modes)^[n] cls) =
        (if m < n then cls ++ [Client.mk cid (n - m) false 0 modes] else cls)) := by
  refine ⟨?_, ?_, ?_⟩
  · intro hex
    have hany : cls.any (fun c => c.instance_ == cid) = true := by
      obtain ⟨c, hc, he⟩ := hex
      exact List.any_eq_true.mpr ⟨c, hc, by simpa using he⟩
    rw [addClient_present cls cid modes hany, List.length_map]
  · intro hnd
    constructor
    · by_cases hany : cls.any (fun c => c.instance_ == cid) = true
      · rw [addClient_present cls cid modes hany, List.map_map]
        have hcongr : cls.map (Client.instance_ ∘ fun c =>
            if c.instance_ == cid then
              Client.mk c.instance_ (c.count + 1) c.watchingStopped c.pending c.m_watchModes
            else c) = cls.map Client.instance_ := by
          apply List.map_congr_left
          intro c _
          simp only [Function.comp_apply]
          split <;> rfl
        rw [hcongr]
        exact hnd
      · have habs : ∀ c ∈ cls, c.instance_ ≠ cid := by
          intro c hc he
          exact hany (List.any_eq_true.mpr ⟨c, hc, by simpa using he⟩)
        rw [addClient_absent cls cid modes habs, List.map_append]
        have hnotin : cid ∉ cls.map Client.instance_ := by
          intro hmem
          obtain ⟨c, hc, he⟩ := List.mem_map.mp hmem
          exact habs c hc he
        simp [List.nodup_append, hnd, hnotin]
    · exact hnd.sublist (removeClient_map_sublist cls cid)
  · intro habs n m hn
    rw [addClient_iterate cls cid modes habs n hn]
    exact removeClient_iterate_appended cls cid modes habs m n hn

theorem client_refcount_spec_witness :
    (addClient [otherClient, Client.mk 7 2 false 0 1] 7 1).length = 2 ∧
    (([otherClient].map Client.instance_).Nodup →
      ((addClient [otherClient] 7 1).map Client.instance_).Nodup ∧
      ((removeClient [otherClient] 7).map Client.instance_).Nodup) ∧
    (fun l => removeClient l 7)^[2] ((fun l => addClient l 7 1)^[3] [otherClient]) =
      [otherClient] ++ [Client.mk 7 1 false 0 1] ∧
    (fun l => removeClient l 7)^[3] ((fun l => addClient l 7 1)^[3] [otherClient]) =
      [otherClient] :=
  ⟨(client_refcount_spec [otherClient, Client.mk 7 2 false 0 1] 7 1).1
      ⟨Client.mk 7 2 false 0 1, by simp, rfl⟩,
   (client_refcount_spec [otherClient] 7 1).2.1,
   by
    rw [(client_refcount_spec [otherClient] 7 1).2.2 (by decide) 3 2 (by decide)]
    rfl,
   by
    rw [(client_refcount_spec [otherClient] 7 1).2.2 (by decide) 3 3 (by decide)]
    rfl⟩

end KDirWatch

namespace KDirWatch

theorem emitEvent_cons_stopped (modeMatch : Nat → Nat → Bool) (d : Client)
    (rest : List Client) (event : Nat) (h : d.watchingStopped = true) :
    emitEvent modeMatch (d :: rest) event = emitEvent modeMatch rest event := by
  rw [emitEvent, emitEvent, List.filterMap_cons, if_pos h]

theorem emitEvent_cons_match (modeMatch : Nat → Nat → Bool) (d : Client)
    (rest : List Client) (event : Nat) (h1 : d.watchingStopped = false)
    (h2 : modeMatch d.m_watchModes event = true) :
    emitEvent modeMatch (d :: rest) event =
      (d.instance_, event) :: emitEvent modeMatch rest event := by
  rw [emitEvent, emitEvent, List.filterMap_cons, if_neg (by simp [h1]), if_pos h2]

theorem emitEvent_cons_nomatch (modeMatch : Nat → Nat → Bool) (d : Client)
    (rest : List Client) (event : Nat) (h1 : d.watchingStopped = false)
    (h2 : modeMatch d.m_watchModes event = false) :
    emitEvent modeMatch (d :: rest) event = emitEvent modeMatch rest event := by
  rw [emitEvent, emitEvent, List.filterMap_cons, if_neg (by simp [h1]),
    if_neg (by simp [h2])]

theorem deliveredTo_cons_ne (x i event : Nat) (l : List (Nat × Nat)) (h : i ≠ x) :
    deliveredTo x ((i, event) :: l) = deliveredTo x l := by
  rw [deliveredTo, deliveredTo, List.countP_cons]
  simp [h]

theorem deliveredTo_cons_self (x event : Nat) (l : List (Nat × Nat)) :
    deliveredTo x ((x, event) :: l) = deliveredTo x l + 1 := by
  rw [deliveredTo, deliveredTo, List.countP_cons]
  simp

theorem deliveredTo_emitEvent_notmem (modeMatch : Nat → Nat → Bool) (cls : List Client)
    (event : Nat) (x : Nat) (hx : x ∉ cls.map Client.instance_) :
    deliveredTo x (emitEvent modeMatch cls event) = 0 := by
  induction cls with
  | nil => rfl
  | cons d rest ih =>
    rw [List.map_cons] at hx
    have hxd : d.instance_ ≠ x := fun h => hx (h ▸ List.mem_cons_self _ _)
    have hxr : x ∉ rest.map Client.instance_ := fun h => hx (List.mem_cons_of_mem _ h)
    by_cases hstop : d.watchingStopped = true
    · rw [emitEvent_cons_stopped _ _ _ _ hstop]
      exact ih hxr
    · have hsf : d.watchingStopped = false := by simpa using hstop
      by_cases hm : modeMatch d.m_watchModes event = true
      · rw [emitEvent_cons_match _ _ _ _ hsf hm, deliveredTo_cons_ne _ _ _ _ hxd]
        exact ih hxr
      · have hmf : modeMatch d.m_watchModes event = false := by simpa using hm
        rw [emitEvent_cons_nomatch _ _ _ _ hsf hmf]
        exact ih hxr

theorem deliveredTo_emitEvent (modeMatch : Nat → Nat → Bool) (cls : List Client)
    (event : Nat) (hnd : (cls.map Client.instance_).Nodup) (c : Client) (hc : c ∈ cls) :
    deliveredTo c.instance_ (emitEvent modeMatch cls event) =
      (if c.watchingStopped = false ∧ modeMatch c.m_watchModes event = true
       then 1 else 0) := by
  induction cls with
  | nil => cases hc
  | cons d rest ih =>
    rw [List.map_cons, List.nodup_cons] at hnd
    obtain ⟨hdnot, hndrest⟩ := hnd
    rcases List.mem_cons.mp hc with rfl | hcr
    · have hrest0 : deliveredTo c.instance_ (emitEvent modeMatch rest event) = 0 :=
        deliveredTo_emitEvent_notmem modeMatch rest event c.instance_ hdnot
      by_cases hstop : c.watchingStopped = true
      · rw [emitEvent_cons_stopped _ _ _ _ hstop, hrest0,
          if_neg (fun hcon => by rw [hcon.1] at hstop; cases hstop)]
      · have hsf : c.watchingStopped = false := by simpa using hstop
        by_cases hm : modeMatch c.m_watchModes event = true
        · rw [emitEvent_cons_match _ _ _ _ hsf hm, deliveredTo_cons_self, hrest0,
            if_pos ⟨hsf, hm⟩]
        · have hmf : modeMatch c.m_watchModes event = false := by simpa using hm
          rw [emitEvent_cons_nomatch _ _ _ _ hsf hmf, hrest0,
            if_neg (fun hcon => by rw [hcon.2] at hmf; cases hmf)]
    · have hne : d.instance_ ≠ c.instance_ := by
        intro h
        exact hdnot (h ▸ List.mem_map.mpr ⟨c, hcr, rfl⟩)
      by_cases hstop : d.watchingStopped = true
      · rw [emitEvent_cons_stopped _ _ _ _ hstop]
        exact ih hndrest hcr
      · have hsf : d.watchingStopped = false := by simpa using hstop
        by_cases hm : modeMatch d.m_watchModes event = true
        · rw [emitEvent_cons_match _ _ _ _ hsf hm, deliveredTo_cons_ne _ _ _ _ hne]
          exact ih hndrest hcr
        · have hmf : modeMatch d.m_watchModes event = false := by simpa using hm
          rw [emitEvent_cons_nomatch _ _ _ _ hsf hmf]
          exact ih hndrest hcr

theorem batchEvents_testBit (evs : List Nat) (i : Nat) :
    (batchEvents evs).testBit i = evs.any (fun e => e.testBit i) := by
  rw [batchEvents]
  suffices h : ∀ acc, (evs.foldl (fun a e => a ||| e) acc).testBit i =
      (acc.testBit i || evs.any (fun e => e.testBit i)) by
    rw [h 0]
    simp
  induction evs with
  | nil => intro acc; simp
  | cons e rest ih =>
    intro acc
    rw [List.foldl_cons, ih, Nat.testBit_or, List.any_cons, Bool.or_assoc]

theorem batch_bit2 (evs : List Nat)
    (hv : ∀ ev ∈ evs, ev = Changed ∨ ev = Created ∨ ev = Deleted) :
    ((batchEvents evs).testBit 2 = true) ↔ Deleted ∈ evs := by
  rw [batchEvents_testBit, List.any_eq_true]
  constructor
  · rintro ⟨e, he, hb⟩
    rcases hv e he with rfl | rfl | rfl
    · exact absurd hb (by decide)
    · exact absurd hb (by decide)
    · exact he
  · intro h
    exact ⟨Deleted, h, by decide⟩

theorem batch_bit1 (evs : List Nat)
    (hv : ∀ ev ∈ evs, ev = Changed ∨ ev = Created ∨ ev = Deleted) :
    ((batchEvents evs).testBit 1 = true) ↔ Created ∈ evs := by
  rw [batchEvents_testBit, List.any_eq_true]
  constructor
  · rintro ⟨e, he, hb⟩
    rcases hv e he with rfl | rfl | rfl
    · exact absurd hb (by decide)
    · exact he
    · exact absurd hb (by decide)
  · intro h
    exact ⟨Created, h, by decide⟩

theorem batch_bit0 (evs : List Nat)
    (hv : ∀ ev ∈ evs, ev = Changed ∨ ev = Created ∨ ev = Deleted) :
    ((batchEvents evs).testBit 0 = true) ↔ Changed ∈ evs := by
  rw [batchEvents_testBit, List.any_eq_true]
  constructor
  · rintro ⟨e, he, hb⟩
    rcases hv e he with rfl | rfl | rfl
    · exact he
    · exact absurd hb (by decide)
    · exact absurd hb (by decide)
  · intro h
    exact ⟨Changed, h, by decide⟩

/-- C4: in one scan cycle, fan-out delivers exactly one notification to
every client that is not paused and whose watch modes match the event,
and none to a paused or non-matching client; several underlying changes
within the cycle batch into the single strongest event, `Created` and
`Deleted` each dominating `Changed`. -/
theorem emitEvent_fanout (modeMatch : Nat → Nat → Bool) (cls : List Client) (event : Nat) :
    ((cls.map Client.instance_).Nodup →
      ∀ c ∈ cls,
        deliveredTo c.instance_ (emitEvent modeMatch cls event) =
          (if c.watchingStopped = false ∧ modeMatch c.m_watchModes event = true
           then 1 else 0)) ∧
    (∀ evs : List Nat, (∀ ev ∈ evs, ev = Changed ∨ ev = Created ∨ ev = Deleted) →
      (Deleted ∈ evs → strongestEvent (batchEvents evs) = Deleted) ∧
      (Created ∈ evs → Deleted ∉ evs → strongestEvent (batchEvents evs) = Created) ∧
      (Changed ∈ evs → Created ∉ evs → Deleted ∉ evs →
        strongestEvent (batchEvents evs) = Changed)) := by
  constructor
  · intro hnd c hc
    exact deliveredTo_emitEvent modeMatch cls event hnd c hc
  · intro evs hv
    refine ⟨?_, ?_, ?_⟩
    · intro hdel
      rw [strongestEvent, if_pos ((batch_bit2 evs hv).mpr hdel)]
    · intro hcre hdel
      have hb2 : (batchEvents evs).testBit 2 = false := by
        rw [← Bool.not_eq_true]
        exact fun h => hdel ((batch_bit2 evs hv).mp h)
      rw [strongestEvent, if_neg (by rw [hb2]; exact Bool.false_ne_true),
        if_pos ((batch_bit1 evs hv).mpr hcre)]
    · intro hchg hcre hdel
      have hb2 : (batchEvents evs).testBit 2 = false := by
        rw [← Bool.not_eq_true]
        exact fun h => hdel ((batch_bit2 evs hv).mp h)
      have hb1 : (batchEvents evs).testBit 1 = false := by
        rw [← Bool.not_eq_true]
        exact fun h => hcre ((batch_bit1 evs hv).mp h)
      rw [strongestEvent, if_neg (by rw [hb2]; exact Bool.false_ne_true),
        if_neg (by rw [hb1]; exact Bool.false_ne_true),
        if_pos ((batch_bit0 evs hv).mpr hchg)]

theorem emitEvent_fanout_witness :
    deliveredTo 1 (emitEvent (fun modes _ => modes == 1) fanoutClients Changed) = 1 ∧
    deliveredTo 2 (emitEvent (fun modes _ => modes == 1) fanoutClients Changed) = 0 ∧
    deliveredTo 3 (emitEvent (fun modes _ => modes == 1) fanoutClients Changed) = 0 ∧
    strongestEvent (batchEvents [Changed, Created, Changed]) = Created ∧
    strongestEvent (batchEvents [Changed, Deleted]) = Deleted ∧
    strongestEvent (batchEvents [Changed, Changed]) = Changed :=
  ⟨(emitEvent_fanout (fun modes _ => modes == 1) fanoutClients Changed).1 (by decide)
      (Client.mk 1 1 false 0 1) (by decide),
   (emitEvent_fanout (fun modes _ => modes == 1) fanoutClients Changed).1 (by decide)
      (Client.mk 2 1 true 0 1) (by decide),
   (emitEvent_fanout (fun modes _ => modes == 1) fanoutClients Changed).1 (by decide)
      (Client.mk 3 1 false 0 0) (by decide),
   ((emitEvent_fanout (fun modes _ => modes == 1) fanoutClients Changed).2
      [Changed, Created, Changed] (by decide)).2.1 (by decide) (by decide),
   ((emitEvent_fanout (fun modes _ => modes == 1) fanoutClients Changed).2
      [Changed, Deleted] (by decide)).1 (by decide),
   ((emitEvent_fanout (fun modes _ => modes == 1) fanoutClients Changed).2
      [Changed, Changed] (by decide)).2.2 (by decide) (by decide) (by decide)⟩

end KDirWatch

namespace KDirWatch

theorem countNotif_map_clients (cid : Nat) (p q : String) (cls : List Client) :
    countNotif cid p (cls.map (fun c => (c.instance_, q, Created))) =
      (if q = p then cls.countP (fun c => c.instance_ == cid) else 0) := by
  induction cls with
  | nil =>
    rw [List.map_nil, countNotif, List.countP_nil]
    by_cases hq : q = p
    · rw [if_pos hq, List.countP_nil]
    · rw [if_neg hq]
  | cons c rest ih =>
    rw [List.map_cons, countNotif, List.countP_cons]
    rw [countNotif] at ih
    rw [ih]
    by_cases hq : q = p
    · subst hq
      rw [if_pos rfl, if_pos rfl, List.countP_cons]
      congr 1
      simp
    · rw [if_neg hq, if_neg hq]
      simp [hq]

mutual

theorem countNotif_promote (ex : String → Bool) (cid : Nat) (p : String) (e : Entry) :
    countNotif cid p (promote ex e) = promotedRegs ex cid p e := by
  cases e with
  | mk cls subs q ct ino nl st md d dr =>
    rw [promote, promotedRegs, countNotif, List.countP_append]
    have h1 := countNotif_map_clients cid p q cls
    rw [countNotif] at h1
    have h2 := countNotif_promoteSubs ex cid p subs
    rw [countNotif] at h2
    rw [h1, h2]

theorem countNotif_promoteSubs (ex : String → Bool) (cid : Nat) (p : String)
    (l : List Entry) :
    countNotif cid p (promoteSubs ex l) = promotedRegsSubs ex cid p l := by
  cases l with
  | nil => rfl
  | cons s rest =>
    rw [promoteSubs, promotedRegsSubs, countNotif, List.countP_append]
    have h2 := countNotif_promoteSubs ex cid p rest
    rw [countNotif] at h2
    rw [h2]
    by_cases hex : ex s.path = true
    · rw [if_pos hex, if_pos hex]
      have h1 := countNotif_promote ex cid p s
      rw [countNotif] at h1
      rw [h1]
    · rw [if_neg hex, if_neg hex, List.countP_nil]

end

/-- C2: promotion after the creation of a watched missing path delivers
`Created` events matching the promoted registrations exactly: for every
existence predicate, the number of `Created` deliveries for path `p` to
subscriber `cid` equals the number of registrations of `cid` at `p` in
the promoted region of the sub-entry tree; in particular a subscriber
holding exactly one registration for the created path receives exactly
one `Created` event, with no further registration call. -/
theorem promotion_delivers_one_created (ex : String → Bool) (e : Entry) (cid : Nat)
    (p : String) :
    countNotif cid p (promote ex e) = promotedRegs ex cid p e ∧
    (promotedRegs ex cid p e = 1 → countNotif cid p (promote ex e) = 1) := by
  have h := countNotif_promote ex cid p e
  exact ⟨h, fun h1 => h.trans h1⟩

theorem promotion_delivers_one_created_witness :
    promotedRegs (fun _ => true) 7 "d/m/f" missingDirM = 1 ∧
    countNotif 7 "d/m/f" (promote (fun _ => true) missingDirM) = 1 :=
  ⟨rfl,
   (promotion_delivers_one_created (fun _ => true) missingDirM 7 "d/m/f").2 rfl⟩

end KDirWatch
